import Mathlib

/-!
Verification development for the `uidstress` external-memory deduplication
engine (package `uidstress`, file modelled from `src/unnamed/part_001`).

The Go code is shallowly embedded as executable Lean definitions:

* identifier strings are modelled by an arbitrary linearly ordered type `α`
  (Go compares strings bytewise, a linear order; nothing in the engine
  depends on further structure of strings);
* the SHA-256 digest is an external collaborator (`crypto/sha256`); it is
  modelled as an abstract function of the full byte stream / value list,
  since a streaming hash's final sum depends only on the concatenation of
  the written bytes;
* file contents are byte lists (`List Nat`), one byte per element;
* `int64` quantities are modelled as `Int` (no overflow is modelled; the
  engine never approaches 2^63 in the quantified ranges of the claims),
  and the float64 arithmetic of the resource guards is modelled over `ℚ`;
* effects (generator calls, memory/disk queries, storage read-back,
  cancellation signals, heap tie-breaking) are supplied by an explicit
  environment, and the orchestration functions additionally return an
  event trace recording resource allocation, guard checks, verification
  and merge start, which makes the temporal claims statable.
-/

namespace UidStress

/-! ### Byte-level model of `hashStrings`, `writeChunkFile`, `hashFile`

`hashStrings` feeds each value and then a single `'\n'` byte to the
incremental hasher; `writeChunkFile` writes each value followed by `'\n'`
through a buffered writer; `hashFile` hashes the persisted bytes.  The
digest itself (`crypto/sha256`) is a collaborator, abstracted as any
function of the byte stream. -/

/-- The sequence of byte blocks written to the incremental hasher by
`hashStrings`: for each value `v`, the block `v` followed by the block
`[10]` (the newline byte), mirroring `h.Write([]byte(v)); h.Write([]byte{'\n'})`. -/
def hashBlocks : List (List Nat) → List (List Nat)
  | [] => []
  | v :: rest => v :: [10] :: hashBlocks rest

/-- Model of `hashStrings`: the digest of the concatenation of all blocks
written to the incremental hasher. -/
def hashStrings {β : Type} (digest : List Nat → β) (values : List (List Nat)) : β :=
  digest (hashBlocks values).flatten

/-- Model of `writeChunkFile`: the byte content of the chunk file, built by
the buffered writer appending each value and then a newline byte. -/
def writeChunkFile (values : List (List Nat)) : List Nat :=
  values.foldl (fun acc v => acc ++ v ++ [10]) []

/-- Model of `hashFile`: the digest of the persisted file bytes. -/
def hashFile {β : Type} (digest : List Nat → β) (file : List Nat) : β :=
  digest file

lemma writeChunkFile_acc (values : List (List Nat)) :
    ∀ acc : List Nat,
      values.foldl (fun acc v => acc ++ v ++ [10]) acc = acc ++ (hashBlocks values).flatten := by
  induction values with
  | nil => intro acc; simp [hashBlocks]
  | cons v rest ih =>
    intro acc
    simp only [List.foldl_cons, hashBlocks, List.flatten_cons, ih]
    simp

/-- The bytes persisted by `writeChunkFile` are exactly the bytes fed to the
incremental hasher by `hashStrings`. -/
lemma writeChunkFile_eq_hashBlocks (values : List (List Nat)) :
    writeChunkFile values = (hashBlocks values).flatten := by
  show values.foldl (fun acc v => acc ++ v ++ [10]) [] = (hashBlocks values).flatten
  rw [writeChunkFile_acc values []]
  simp

/-! ### `dedupeSorted` -/

/-- Tail of the in-place compaction loop of `dedupeSorted`: `prev` is the
most recently kept value; a value is kept exactly when it differs from
`prev` (Go: `if values[i] != prev`). -/
def dedupeSortedAux {α : Type} [DecidableEq α] (prev : α) : List α → List α
  | [] => []
  | v :: rest => if v = prev then dedupeSortedAux prev rest else v :: dedupeSortedAux v rest

/-- Model of `dedupeSorted`: the first value is always kept, then the
two-pointer compaction keeps each value differing from the last kept one. -/
def dedupeSorted {α : Type} [DecidableEq α] : List α → List α
  | [] => []
  | v :: rest => v :: dedupeSortedAux v rest

lemma perm_toFinset {α : Type} [DecidableEq α] {l l' : List α} (p : l.Perm l') :
    l.toFinset = l'.toFinset := by
  ext x
  simp [p.mem_iff]

lemma dedupeSortedAux_sorted {α : Type} [LinearOrder α] :
    ∀ (l : List α) (prev : α), List.Sorted (· ≤ ·) (prev :: l) →
      List.Sorted (· < ·) (prev :: dedupeSortedAux prev l)
  | [], _, _ => by simp [dedupeSortedAux]
  | v :: rest, prev, h => by
    rw [List.sorted_cons] at h
    obtain ⟨hle, hsorted⟩ := h
    by_cases hv : v = prev
    · rw [dedupeSortedAux, if_pos hv]
      refine dedupeSortedAux_sorted rest prev ?_
      rw [List.sorted_cons]
      exact ⟨fun b hb => hle b (List.mem_cons_of_mem v hb), hsorted.of_cons⟩
    · rw [dedupeSortedAux, if_neg hv]
      have htail : List.Sorted (· < ·) (v :: dedupeSortedAux v rest) :=
        dedupeSortedAux_sorted rest v hsorted
      rw [List.sorted_cons]
      refine ⟨?_, htail⟩
      intro b hb
      have hpv : prev < v :=
        lt_of_le_of_ne (hle v (List.mem_cons_self v rest)) (Ne.symm hv)
      rcases List.mem_cons.mp hb with hb | hb
      · exact hb ▸ hpv
      · exact hpv.trans (List.rel_of_sorted_cons htail b hb)

lemma dedupeSorted_sorted {α : Type} [LinearOrder α] {l : List α}
    (h : List.Sorted (· ≤ ·) l) : List.Sorted (· < ·) (dedupeSorted l) := by
  cases l with
  | nil => simp [dedupeSorted]
  | cons v rest => exact dedupeSortedAux_sorted rest v h

lemma dedupeSortedAux_toFinset {α : Type} [DecidableEq α] :
    ∀ (l : List α) (prev : α),
      insert prev (dedupeSortedAux prev l).toFinset = insert prev l.toFinset
  | [], _ => by simp [dedupeSortedAux]
  | v :: rest, prev => by
    by_cases hv : v = prev
    · rw [dedupeSortedAux, if_pos hv, dedupeSortedAux_toFinset rest prev,
        List.toFinset_cons, hv, Finset.insert_idem]
    · rw [dedupeSortedAux, if_neg hv, List.toFinset_cons, List.toFinset_cons,
        dedupeSortedAux_toFinset rest v]

lemma dedupeSorted_toFinset {α : Type} [DecidableEq α] (l : List α) :
    (dedupeSorted l).toFinset = l.toFinset := by
  cases l with
  | nil => rfl
  | cons v rest =>
    rw [dedupeSorted, List.toFinset_cons, List.toFinset_cons]
    exact dedupeSortedAux_toFinset rest v

/-! ### MergeEngine: the k-way merge of `mergeChunks`

A `Cursor` models the `chunkReader`: the current value plus the values
still unread; a reader at eof is represented by the cursor having been
dropped.  Go's `container/heap` pops some entry with a minimal value, with
unspecified tie-breaking among equal values; the model therefore takes the
choice as a parameter `sel` (indexed by the iteration number, so any
history-dependent heap layout is representable) and the correctness
theorems quantify over every choice policy that picks a minimal entry. -/

structure Cursor (α : Type) where
  value : α
  rest : List α
deriving DecidableEq

def Cursor.toList {α : Type} (c : Cursor α) : List α := c.value :: c.rest

/-- All values still to be emitted by a cursor family, current values included. -/
def remaining {α : Type} (cs : List (Cursor α)) : List α :=
  (cs.map Cursor.toList).flatten

inductive MergeErr where
  | noChunks
  | allEmpty
  | cancelled
  | outOfFuel
deriving DecidableEq

/-- Index clamp for the selection policy: an out-of-range choice falls back
to `0`.  A valid heap policy always chooses in range, making the clamp the
identity. -/
def selIdx {α : Type} (cs : List (Cursor α)) (n : Nat) : Nat :=
  if n < cs.length then n else 0

/-- One heap extraction applied to the cursor family: the popped cursor is
advanced in place, or dropped once exhausted (Go: `advance`; a reader at
eof is not pushed back onto the heap). -/
def popAt {α : Type} (cs : List (Cursor α)) (d₀ : Cursor α) (i : Nat) : List (Cursor α) :=
  match (cs.getD i d₀).rest with
  | [] => cs.eraseIdx i
  | w :: ws => cs.set i ⟨w, ws⟩

/-- The duplicate test of the merge loop: Go's
`hasPrev && entry.value == prevValue`. -/
def mergeIsDup {α : Type} [DecidableEq α] (prev : Option α) (v : α) : Bool :=
  match prev with
  | some p => decide (v = p)
  | none => false

/-- The merge loop of `mergeChunks`: at each iteration check the
cancellation signal, pop a minimum entry (the policy `sel` chooses among
tied minima), compare against the low-water mark `prev` — a duplicate when
equal, otherwise a fresh unique value — and advance the popped cursor.
Besides the counters it returns, as instrumentation for the temporal
claims, the list of values popped before returning, in pop order.  `fuel`
bounds the iteration count; every call site passes the total number of
remaining values, making the `outOfFuel` branch unreachable. -/
def mergeLoop {α : Type} [LinearOrder α] (sel : Nat → List (Cursor α) → Nat)
    (cancel : Nat → Bool) :
    Nat → List (Cursor α) → Option α → Nat → Nat → Nat →
      Except MergeErr (Nat × Nat) × List α
  | _, [], _, u, d, _ => (.ok (u, d), [])
  | 0, _ :: _, _, _, _, _ => (.error .outOfFuel, [])
  | fuel + 1, c :: cs', prev, u, d, step =>
    if cancel step then (.error .cancelled, [])
    else
      let i := selIdx (c :: cs') (sel step (c :: cs'))
      let v := ((c :: cs').getD i c).value
      let out := mergeLoop sel cancel fuel (popAt (c :: cs') c i) (some v)
        (if mergeIsDup prev v then u else u + 1)
        (if mergeIsDup prev v then d + 1 else d)
        (step + 1)
      (out.1, v :: out.2)

/-- Cursors opened over the persisted chunks, in manifest order; a chunk
whose file yields no record (eof on the first advance) is closed and
skipped silently. -/
def toCursors {α : Type} : List (List α) → List (Cursor α)
  | [] => []
  | [] :: rest => toCursors rest
  | (v :: r) :: rest => ⟨v, r⟩ :: toCursors rest

/-- Model of `mergeChunks`: reject an empty manifest, open cursors skipping
empty chunk files, reject the case of no non-empty chunk, then run the
k-way merge loop with empty low-water mark and zeroed counters. -/
def mergeChunks {α : Type} [LinearOrder α] (sel : Nat → List (Cursor α) → Nat)
    (cancel : Nat → Bool) (chunks : List (List α)) :
    Except MergeErr (Nat × Nat) × List α :=
  if chunks.isEmpty then (.error .noChunks, [])
  else
    let readers := toCursors chunks
    if readers.isEmpty then (.error .allEmpty, [])
    else mergeLoop sel cancel (remaining readers).length readers none 0 0 0

/-- A selection policy is valid when, on every non-empty cursor family, it
chooses an in-range index holding a minimal current value — exactly what a
binary min-heap pop guarantees, for any tie-breaking. -/
def ValidSel {α : Type} [LinearOrder α] (sel : Nat → List (Cursor α) → Nat) : Prop :=
  ∀ (step : Nat) (c : Cursor α) (cs' : List (Cursor α)),
    sel step (c :: cs') < (c :: cs').length ∧
      ∀ e ∈ c :: cs', ((c :: cs').getD (sel step (c :: cs')) c).value ≤ e.value

/-- The set the low-water mark contributes: values equal to it are counted
as duplicates rather than fresh uniques. -/
def prevSet {α : Type} [DecidableEq α] : Option α → Finset α
  | none => ∅
  | some p => {p}

lemma remaining_nil {α : Type} : remaining ([] : List (Cursor α)) = [] := rfl

lemma remaining_cons {α : Type} (c : Cursor α) (cs : List (Cursor α)) :
    remaining (c :: cs) = c.toList ++ remaining cs := by
  simp [remaining]

lemma popAt_cons_succ {α : Type} (c : Cursor α) (cs : List (Cursor α)) (d₀ : Cursor α)
    (j : Nat) : popAt (c :: cs) d₀ (j + 1) = c :: popAt cs d₀ j := by
  unfold popAt
  have hget : (c :: cs).getD (j + 1) d₀ = cs.getD j d₀ := rfl
  rw [hget]
  cases cs.getD j d₀ |>.rest with
  | nil => rfl
  | cons w ws => rfl

lemma remaining_popAt {α : Type} :
    ∀ (cs : List (Cursor α)) (d₀ : Cursor α) (i : Nat), i < cs.length →
      List.Perm (remaining cs) ((cs.getD i d₀).value :: remaining (popAt cs d₀ i))
  | [], _, i, h => absurd h (by simp)
  | c :: cs', d₀, 0, _ => by
    unfold popAt
    rw [List.getD_cons_zero]
    cases hr : c.rest with
    | nil => simp [remaining_cons, Cursor.toList, hr]
    | cons w ws => simp [remaining_cons, Cursor.toList, hr]
  | c :: cs', d₀, j + 1, h => by
    have hj : j < cs'.length := by simpa using h
    have ih := remaining_popAt cs' d₀ j hj
    rw [List.getD_cons_succ, popAt_cons_succ, remaining_cons, remaining_cons]
    exact (ih.append_left c.toList).trans List.perm_middle

lemma mem_remaining {α : Type} {cs : List (Cursor α)} {x : α} :
    x ∈ remaining cs ↔ ∃ c ∈ cs, x ∈ c.toList := by
  simp [remaining, List.mem_flatten]

lemma sorted_popAt {α : Type} [LinearOrder α] {cs : List (Cursor α)} (d₀ : Cursor α) {i : Nat}
    (hi : i < cs.length) (hs : ∀ c ∈ cs, List.Sorted (· ≤ ·) c.toList) :
    ∀ c ∈ popAt cs d₀ i, List.Sorted (· ≤ ·) c.toList := by
  have hmem : cs.getD i d₀ ∈ cs := by
    rw [List.getD_eq_getElem cs d₀ hi]
    exact List.getElem_mem hi
  unfold popAt
  cases hr : (cs.getD i d₀).rest with
  | nil =>
    intro c hc
    exact hs c ((cs.eraseIdx_sublist i).subset hc)
  | cons w ws =>
    intro c hc
    rcases List.mem_or_eq_of_mem_set hc with h | h
    · exact hs c h
    · subst h
      have hsort := hs (cs.getD i d₀) hmem
      rw [Cursor.toList, hr] at hsort
      simpa [Cursor.toList] using hsort.of_cons

lemma min_le_remaining {α : Type} [LinearOrder α] {cs : List (Cursor α)} {m : α}
    (hmin : ∀ c ∈ cs, m ≤ c.value) (hs : ∀ c ∈ cs, List.Sorted (· ≤ ·) c.toList) :
    ∀ x ∈ remaining cs, m ≤ x := by
  intro x hx
  rcases mem_remaining.mp hx with ⟨c, hc, hxc⟩
  rw [Cursor.toList] at hxc
  rcases List.mem_cons.mp hxc with h | h
  · exact h ▸ hmin c hc
  · have hsort := hs c hc
    rw [Cursor.toList] at hsort
    exact (hmin c hc).trans (List.rel_of_sorted_cons hsort x h)

lemma toFinset_of_perm_cons {α : Type} [DecidableEq α] {R R' : List α} {v : α}
    (hp : List.Perm R (v :: R')) : R.toFinset = insert v R'.toFinset := by
  rw [perm_toFinset hp, List.toFinset_cons]

lemma sdiff_singleton_insert_self {α : Type} [DecidableEq α] (p : α) (S : Finset α) :
    insert p S \ {p} = S \ {p} := by
  ext x
  simp only [Finset.mem_sdiff, Finset.mem_insert, Finset.mem_singleton]
  tauto

lemma card_insert_sdiff {α : Type} [DecidableEq α] (v : α) (S : Finset α) :
    (insert v S).card = (S \ {v}).card + 1 := by
  have h : insert v S = insert v (S \ {v}) := by
    ext x
    simp only [Finset.mem_insert, Finset.mem_sdiff, Finset.mem_singleton]
    tauto
  rw [h, Finset.card_insert_of_not_mem (by simp)]

lemma sdiff_of_no_mem {α : Type} [DecidableEq α] {T P : Finset α}
    (h : ∀ x ∈ T, x ∉ P) : T \ P = T := by
  ext x
  simp only [Finset.mem_sdiff]
  exact ⟨fun h' => h'.1, fun hx => ⟨hx, h x hx⟩⟩

/-- Complete no-cancellation runs of the merge loop: starting from any
state, the loop succeeds and counts one unique per distinct remaining value
not already covered by the low-water mark, and one duplicate for every
other remaining value. -/
lemma mergeLoop_ok {α : Type} [LinearOrder α] {sel : Nat → List (Cursor α) → Nat}
    (hsel : ValidSel sel) :
    ∀ (fuel : Nat) (cs : List (Cursor α)) (prev : Option α) (u d step : Nat),
      (remaining cs).length ≤ fuel →
      (∀ c ∈ cs, List.Sorted (· ≤ ·) c.toList) →
      (∀ p, prev = some p → ∀ x ∈ remaining cs, p ≤ x) →
      (mergeLoop sel (fun _ => false) fuel cs prev u d step).1 =
        .ok (u + ((remaining cs).toFinset \ prevSet prev).card,
             d + ((remaining cs).length - ((remaining cs).toFinset \ prevSet prev).card)) := by
  intro fuel
  induction fuel with
  | zero =>
    intro cs prev u d step hfuel _ _
    cases cs with
    | nil => simp [mergeLoop, remaining_nil, prevSet]
    | cons c cs' =>
      exfalso
      have hpos : 0 < (remaining (c :: cs')).length := by
        simp [remaining_cons, Cursor.toList]
      omega
  | succ fuel ih =>
    intro cs prev u d step hfuel hsorted hprev
    cases cs with
    | nil => simp [mergeLoop, remaining_nil, prevSet]
    | cons c cs' =>
      obtain ⟨hlt, hmin⟩ := hsel step c cs'
      have hieq : selIdx (c :: cs') (sel step (c :: cs')) = sel step (c :: cs') := by
        unfold selIdx
        rw [if_pos hlt]
      rw [mergeLoop]
      simp only [hieq, if_neg Bool.false_ne_true]
      have hilt : sel step (c :: cs') < (c :: cs').length := hlt
      have hperm := remaining_popAt (c :: cs') c (sel step (c :: cs')) hilt
      have hlen : (remaining (c :: cs')).length =
          (remaining (popAt (c :: cs') c (sel step (c :: cs')))).length + 1 := by
        rw [hperm.length_eq]
        rfl
      have hheads : ∀ x ∈ remaining (c :: cs'),
          ((c :: cs').getD (sel step (c :: cs')) c).value ≤ x :=
        min_le_remaining hmin hsorted
      have hfuel' : (remaining (popAt (c :: cs') c (sel step (c :: cs')))).length ≤ fuel := by
        omega
      have hsorted' := sorted_popAt c hilt hsorted
      have hprev' : ∀ p, some ((c :: cs').getD (sel step (c :: cs')) c).value = some p →
          ∀ x ∈ remaining (popAt (c :: cs') c (sel step (c :: cs'))), p ≤ x := by
        intro p hp x hx
        obtain rfl : ((c :: cs').getD (sel step (c :: cs')) c).value = p :=
          Option.some.inj hp
        exact hheads x (hperm.mem_iff.mpr (List.mem_cons_of_mem _ hx))
      have hT := toFinset_of_perm_cons hperm
      cases prev with
      | none =>
        have hnd : ¬(mergeIsDup (none : Option α)
            ((c :: cs').getD (sel step (c :: cs')) c).value = true) := by
          simp only [mergeIsDup]
          exact Bool.false_ne_true
        rw [if_neg hnd, if_neg hnd]
        rw [ih (popAt (c :: cs') c (sel step (c :: cs')))
          (some ((c :: cs').getD (sel step (c :: cs')) c).value)
          (u + 1) d (step + 1) hfuel' hsorted' hprev']
        have hcard : ((remaining (c :: cs')).toFinset \ prevSet (none : Option α)).card =
            ((remaining (popAt (c :: cs') c (sel step (c :: cs')))).toFinset \
              prevSet (some ((c :: cs').getD (sel step (c :: cs')) c).value)).card + 1 := by
          simp only [prevSet]
          rw [Finset.sdiff_empty, hT, card_insert_sdiff]
        simp only [Except.ok.injEq, Prod.mk.injEq]
        omega
      | some p =>
        by_cases hvp : ((c :: cs').getD (sel step (c :: cs')) c).value = p
        · have hdup : mergeIsDup (some p)
              ((c :: cs').getD (sel step (c :: cs')) c).value = true := by
            simp only [mergeIsDup, decide_eq_true_eq]
            exact hvp
          rw [if_pos hdup, if_pos hdup]
          rw [ih (popAt (c :: cs') c (sel step (c :: cs')))
            (some ((c :: cs').getD (sel step (c :: cs')) c).value)
            u (d + 1) (step + 1) hfuel' hsorted' hprev']
          have hcard : ((remaining (c :: cs')).toFinset \ prevSet (some p)).card =
              ((remaining (popAt (c :: cs') c (sel step (c :: cs')))).toFinset \
                prevSet (some ((c :: cs').getD (sel step (c :: cs')) c).value)).card := by
            simp only [prevSet]
            rw [hT, hvp, sdiff_singleton_insert_self]
          have hbound :
              ((remaining (popAt (c :: cs') c (sel step (c :: cs')))).toFinset \
                prevSet (some ((c :: cs').getD (sel step (c :: cs')) c).value)).card ≤
              (remaining (popAt (c :: cs') c (sel step (c :: cs')))).length :=
            le_trans (Finset.card_le_card Finset.sdiff_subset) (List.toFinset_card_le _)
          simp only [Except.ok.injEq, Prod.mk.injEq]
          omega
        · have hnd : ¬(mergeIsDup (some p)
              ((c :: cs').getD (sel step (c :: cs')) c).value = true) := by
            simp only [mergeIsDup, decide_eq_true_eq]
            exact hvp
          rw [if_neg hnd, if_neg hnd]
          rw [ih (popAt (c :: cs') c (sel step (c :: cs')))
            (some ((c :: cs').getD (sel step (c :: cs')) c).value)
            (u + 1) d (step + 1) hfuel' hsorted' hprev']
          have hplt : p < ((c :: cs').getD (sel step (c :: cs')) c).value := by
            have hple := hprev p rfl _ (hperm.mem_iff.mpr (List.mem_cons_self _ _))
            exact lt_of_le_of_ne hple (fun h => hvp h.symm)
          have hself : (remaining (c :: cs')).toFinset \ prevSet (some p) =
              (remaining (c :: cs')).toFinset := by
            refine sdiff_of_no_mem ?_
            intro x hx
            simp only [prevSet, Finset.mem_singleton]
            have hvx := hheads x (List.mem_toFinset.mp hx)
            exact fun h => absurd (h ▸ hvx) (not_le_of_lt hplt)
          have hcard : ((remaining (c :: cs')).toFinset \ prevSet (some p)).card =
              ((remaining (popAt (c :: cs') c (sel step (c :: cs')))).toFinset \
                prevSet (some ((c :: cs').getD (sel step (c :: cs')) c).value)).card + 1 := by
            rw [hself]
            simp only [prevSet]
            rw [hT, card_insert_sdiff]
          simp only [Except.ok.injEq, Prod.mk.injEq]
          omega

lemma remaining_toCursors {α : Type} :
    ∀ chunks : List (List α), remaining (toCursors chunks) = chunks.flatten
  | [] => rfl
  | [] :: rest => by
    rw [toCursors, remaining_toCursors rest]
    simp
  | (v :: r) :: rest => by
    rw [toCursors, remaining_cons, remaining_toCursors rest]
    simp [Cursor.toList]

lemma toCursors_sorted {α : Type} [LinearOrder α] :
    ∀ (chunks : List (List α)), (∀ ch ∈ chunks, List.Sorted (· ≤ ·) ch) →
      ∀ c ∈ toCursors chunks, List.Sorted (· ≤ ·) c.toList
  | [], _, c, hc => absurd hc (by simp [toCursors])
  | [] :: rest, h, c, hc => by
    rw [toCursors] at hc
    exact toCursors_sorted rest (fun ch hch => h ch (List.mem_cons_of_mem _ hch)) c hc
  | (v :: r) :: rest, h, c, hc => by
    rw [toCursors] at hc
    rcases List.mem_cons.mp hc with hceq | hc
    · subst hceq
      simpa [Cursor.toList] using h (v :: r) (List.mem_cons_self _ _)
    · exact toCursors_sorted rest (fun ch hch => h ch (List.mem_cons_of_mem _ hch)) c hc

lemma toCursors_ne_nil {α : Type} :
    ∀ {chunks : List (List α)}, (∃ ch ∈ chunks, ch ≠ []) → toCursors chunks ≠ []
  | [], h => absurd h (by simp)
  | [] :: rest, h => by
    rw [toCursors]
    refine toCursors_ne_nil ?_
    obtain ⟨ch, hch, hne⟩ := h
    rcases List.mem_cons.mp hch with rfl | hch
    · exact absurd rfl hne
    · exact ⟨ch, hch, hne⟩
  | (v :: r) :: rest, _ => by
    rw [toCursors]
    exact List.cons_ne_nil _ _

/-- Successful merges count exactly one unique per distinct value across
all chunks, and one cross-chunk duplicate for every further occurrence. -/
lemma mergeChunks_ok {α : Type} [LinearOrder α] {sel : Nat → List (Cursor α) → Nat}
    (hsel : ValidSel sel) (chunks : List (List α))
    (hs : ∀ ch ∈ chunks, List.Sorted (· ≤ ·) ch)
    (hne : ∃ ch ∈ chunks, ch ≠ []) :
    (mergeChunks sel (fun _ => false) chunks).1 =
      .ok (chunks.flatten.toFinset.card,
           chunks.flatten.length - chunks.flatten.toFinset.card) := by
  obtain ⟨ch0, hch0, hch0ne⟩ := hne
  have h1 : ¬(chunks.isEmpty = true) := by
    cases chunks with
    | nil => simp at hch0
    | cons a l => simp
  have h2 : ¬((toCursors chunks).isEmpty = true) := by
    have := toCursors_ne_nil ⟨ch0, hch0, hch0ne⟩
    simpa [List.isEmpty_iff] using this
  unfold mergeChunks
  rw [if_neg h1, if_neg h2]
  rw [mergeLoop_ok hsel (remaining (toCursors chunks)).length (toCursors chunks)
    none 0 0 0 (le_refl _) (toCursors_sorted chunks hs) (by intro p hp; cases hp)]
  rw [remaining_toCursors]
  simp [prevSet]

/-- A cancellation signal first raised at pop iteration `n`, with at least
`n - step + 1` values still to pop, stops the loop at exactly that
iteration: the result is the cancellation error and exactly `n - step`
further values were popped beforehand. -/
lemma mergeLoop_cancelled {α : Type} [LinearOrder α] (sel : Nat → List (Cursor α) → Nat)
    (cancel : Nat → Bool) :
    ∀ (fuel : Nat) (cs : List (Cursor α)) (prev : Option α) (u d step n : Nat),
      step ≤ n → cancel n = true → (∀ m, step ≤ m → m < n → cancel m = false) →
      n - step < (remaining cs).length → (remaining cs).length ≤ fuel →
      (mergeLoop sel cancel fuel cs prev u d step).1 = .error .cancelled ∧
        ((mergeLoop sel cancel fuel cs prev u d step).2).length = n - step := by
  intro fuel
  induction fuel with
  | zero =>
    intro cs prev u d step n _ _ _ hlt hfuel
    omega
  | succ fuel ih =>
    intro cs prev u d step n hsn hn hfirst hlt hfuel
    cases cs with
    | nil =>
      rw [remaining_nil] at hlt
      simp at hlt
    | cons c cs' =>
      by_cases hcs : cancel step = true
      · have hstep : step = n := by
          by_contra hne
          have : cancel step = false := hfirst step (le_refl _) (by omega)
          rw [this] at hcs
          exact absurd hcs (by simp)
        rw [mergeLoop, if_pos hcs]
        subst hstep
        simp
      · have hcs' : cancel step = false := by
          cases h : cancel step
          · rfl
          · exact absurd h hcs
        have hstepn : step < n := by
          rcases lt_or_eq_of_le hsn with h | h
          · exact h
          · rw [h] at hcs'
            rw [hcs'] at hn
            exact absurd hn (by simp)
        have hilt : selIdx (c :: cs') (sel step (c :: cs')) < (c :: cs').length := by
          unfold selIdx
          split
          · assumption
          · simp
        have hperm := remaining_popAt (c :: cs') c
          (selIdx (c :: cs') (sel step (c :: cs'))) hilt
        have hlen : (remaining (c :: cs')).length =
            (remaining (popAt (c :: cs') c
              (selIdx (c :: cs') (sel step (c :: cs'))))).length + 1 := by
          rw [hperm.length_eq]
          rfl
        rw [mergeLoop, if_neg hcs]
        have ihres := ih (popAt (c :: cs') c (selIdx (c :: cs') (sel step (c :: cs'))))
          (some (((c :: cs').getD (selIdx (c :: cs') (sel step (c :: cs'))) c).value))
          (if mergeIsDup prev (((c :: cs').getD (selIdx (c :: cs') (sel step (c :: cs'))) c).value) then u else u + 1)
          (if mergeIsDup prev (((c :: cs').getD (selIdx (c :: cs') (sel step (c :: cs'))) c).value) then d + 1 else d)
          (step + 1) n (by omega) hn
          (fun m hm1 hm2 => hfirst m (by omega) hm2) (by omega) (by omega)
        refine ⟨ihres.1, ?_⟩
        simp only [List.length_cons, ihres.2]
        omega

lemma toCursors_filter {α : Type} :
    ∀ chunks : List (List α),
      toCursors (chunks.filter (fun ch => !ch.isEmpty)) = toCursors chunks
  | [] => rfl
  | [] :: rest => by
    rw [List.filter_cons]
    simp only [List.isEmpty_nil, Bool.not_true, if_neg Bool.false_ne_true]
    rw [toCursors_filter rest, toCursors]
  | (v :: r) :: rest => by
    rw [List.filter_cons]
    simp only [List.isEmpty_cons, Bool.not_false, if_true]
    rw [toCursors, toCursors_filter rest, toCursors]

lemma toCursors_eq_nil {α : Type} :
    ∀ {chunks : List (List α)}, (∀ ch ∈ chunks, ch = []) → toCursors chunks = []
  | [], _ => rfl
  | [] :: rest, h => by
    rw [toCursors]
    exact toCursors_eq_nil (fun ch hch => h ch (List.mem_cons_of_mem _ hch))
  | (v :: r) :: rest, h => absurd (h _ (List.mem_cons_self _ _)) (by simp)

lemma mergeChunks_skip_empty {α : Type} [LinearOrder α]
    (sel : Nat → List (Cursor α) → Nat) (cancel : Nat → Bool) (chunks : List (List α))
    (hne : ∃ ch ∈ chunks, ch ≠ []) :
    mergeChunks sel cancel (chunks.filter (fun ch => !ch.isEmpty)) =
      mergeChunks sel cancel chunks := by
  obtain ⟨ch0, hch0, hne0⟩ := hne
  have hmemf : ch0 ∈ chunks.filter (fun ch => !ch.isEmpty) := by
    rw [List.mem_filter]
    refine ⟨hch0, ?_⟩
    cases ch0 with
    | nil => exact absurd rfl hne0
    | cons a l => simp
  have h1 : ¬(chunks.isEmpty = true) := by
    cases chunks with
    | nil => simp at hch0
    | cons a l => simp
  have h1f : ¬((chunks.filter (fun ch => !ch.isEmpty)).isEmpty = true) := by
    cases hh : chunks.filter (fun ch => !ch.isEmpty) with
    | nil =>
      rw [hh] at hmemf
      simp at hmemf
    | cons a l => simp
  unfold mergeChunks
  rw [if_neg h1, if_neg h1f, toCursors_filter]

/-- The concrete tie-break policy used for evaluation: pop the first cursor
holding a minimal current value. -/
def idxOfMin {α : Type} [LinearOrder α] : List (Cursor α) → Nat
  | [] => 0
  | _ :: [] => 0
  | c :: c' :: rest =>
    if c.value ≤ ((c' :: rest).getD (idxOfMin (c' :: rest)) c').value then 0
    else idxOfMin (c' :: rest) + 1

lemma idxOfMin_lt {α : Type} [LinearOrder α] :
    ∀ (c : Cursor α) (cs : List (Cursor α)), idxOfMin (c :: cs) < (c :: cs).length
  | _, [] => by simp [idxOfMin]
  | c, c' :: rest => by
    rw [idxOfMin]
    split
    · simp
    · have h := idxOfMin_lt c' rest
      simp only [List.length_cons] at h ⊢
      omega

lemma idxOfMin_min {α : Type} [LinearOrder α] :
    ∀ (c : Cursor α) (cs : List (Cursor α)), ∀ e ∈ c :: cs,
      ((c :: cs).getD (idxOfMin (c :: cs)) c).value ≤ e.value
  | c, [], e, he => by
    rcases List.mem_cons.mp he with rfl | he
    · simp [idxOfMin]
    · simp at he
  | c, c' :: rest, e, he => by
    have hdflt : (c' :: rest).getD (idxOfMin (c' :: rest)) c =
        (c' :: rest).getD (idxOfMin (c' :: rest)) c' := by
      rw [List.getD_eq_getElem _ c (idxOfMin_lt c' rest),
        List.getD_eq_getElem _ c' (idxOfMin_lt c' rest)]
    rw [idxOfMin]
    split
    · rename_i hle
      rw [List.getD_cons_zero]
      rcases List.mem_cons.mp he with rfl | he
      · exact le_refl _
      · exact le_trans hle (idxOfMin_min c' rest e he)
    · rename_i hgt
      rw [List.getD_cons_succ, hdflt]
      rcases List.mem_cons.mp he with rfl | he
      · exact le_of_lt (lt_of_not_le hgt)
      · exact idxOfMin_min c' rest e he

lemma idxOfMin_validSel {α : Type} [LinearOrder α] :
    ValidSel (fun _ cs => idxOfMin (α := α) cs) :=
  fun _ c cs' => ⟨idxOfMin_lt c cs', idxOfMin_min c cs'⟩

/-! ### Pipeline model: `runScheme` and `Run`

The orchestration is embedded with an explicit environment supplying every
effect: the generator stream (`gen n` is the value of the `n`-th generator
call), the memory/disk readings the guards consume, the abstract digest,
the storage read-back at the three points where persisted data is re-read
(post-write check, `verifyChunks`, merge) — the identity function models
intact storage, anything else models corruption — the heap tie-break
policy, and the cancellation signals of the shared context, one per check
site.  Besides the Go result, each function returns an event trace
recording resource allocation, guard checks, chunk generation and
persistence, verification outcome and merge start, in program order; the
temporal claims are stated over these traces.  Config fields with no
effect on modelled results (`Workers`, `TempDir`, `KeepTempData`,
`LogInterval`, `Verbose`) are omitted, as are the log statements they
drive. -/

inductive Err where
  | config
  | resource
  | integrity
  | corruption
  | consistency
  | cancelled
  | outOfFuel
  | merge (e : MergeErr)
deriving DecidableEq

inductive Ev where
  | tempDirCreated
  | diskChecked
  | memChecked (k : Nat) (target : Int)
  | generatedChunk (k : Nat)
  | wroteChunk (k : Nat)
  | verifyOk
  | verifyFailed (k : Nat)
  | mergeStarted
deriving DecidableEq

structure Cfg where
  schemes : List String
  scale : Int
  chunkSize : Int
  approxBytesPerID : Int
  memGuardMB : Rat
  diskSafetyFactor : Rat
deriving DecidableEq

structure Env (α β : Type) where
  gen : Nat → α
  availMB : Nat → Rat
  freeDiskBytes : Rat
  digest : List α → β
  readAtWrite : Nat → List α → List α
  readAtVerify : Nat → List α → List α
  readAtMerge : Nat → List α → List α
  sel : Nat → List (Cursor α) → Nat
  schemeCancel : Nat → Bool
  chunkCancel : Nat → Bool
  mergeCancel : Nat → Bool

/-- The per-chunk manifest record (`chunkMeta`); the persisted content
stands in for the storage path, and sizes/timestamps are omitted. -/
structure ChunkMeta (α β : Type) where
  index : Nat
  values : List α
  uniqueCount : Nat
  originalCount : Int
  hash : β

/-- The per-scheme summary (`Result`); duration and paths are omitted. -/
structure RunResult where
  chunks : Nat
  generated : Int
  chunkUnique : Nat
  unique : Nat
  duplicates : Nat
deriving DecidableEq

structure LoopSt (α β : Type) where
  genCalls : Nat
  totalGenerated : Int
  totalUniqueSum : Nat
  chunkIndex : Nat
  manifest : List (ChunkMeta α β)

/-- Model of `ensureMemory`: estimated need in MB is
`chunkTarget * ApproxBytesPerID / 1024 / 1024`; pass when both the need and
the guard are non-positive, otherwise fail when available memory is below
need plus guard (with the code's reset of a zero threshold to the bare
need).  The float64 arithmetic is modelled over `ℚ`. -/
def ensureMemory (cfg : Cfg) (avail : Rat) (chunkTarget : Int) : Bool :=
  let neededMB : Rat := ((chunkTarget * cfg.approxBytesPerID : Int) : Rat) / 1024 / 1024
  if neededMB ≤ 0 ∧ cfg.memGuardMB ≤ 0 then true
  else
    let threshold0 := neededMB + cfg.memGuardMB
    let threshold := if threshold0 = 0 then neededMB else threshold0
    if avail < threshold then false else true

/-- Model of `ensureDisk`: fail when free space is below the scaled
estimate. -/
def ensureDisk (freeBytes : Rat) (estimatedBytes : Int) (safety : Rat) : Bool :=
  if freeBytes < (estimatedBytes : Rat) * safety then false else true

def knownSchemes : List String :=
  ["nanoid16", "nanoid", "ulid", "ksuid", "customuid", "custom"]

/-- Character-wise lowering of the scheme name, mirroring `strings.ToLower`
for the ASCII names the scheme table contains. -/
def toLowerName (s : String) : String :=
  String.mk (s.data.map Char.toLower)

/-- Model of `generatorFor`: only the success/failure of scheme-name
resolution is modelled; the generators themselves are external
collaborators, their output supplied by `Env.gen`. -/
def generatorFor (name : String) : Bool :=
  knownSchemes.contains (toLowerName name)

/-- The identifiers produced by `count` successive generator calls
starting at call number `start`. -/
def genBatch {α : Type} (gen : Nat → α) (start count : Nat) : List α :=
  (List.range count).map (fun j => gen (start + j))

/-- The chunk-production loop of `runScheme`: while the target scale is
not reached — check cancellation, take the next chunk target, run the
memory guard, generate, sort (`sort.Strings`; modelled by insertion sort,
any sorted permutation), locally dedupe, hash, persist, re-read and check
the persisted hash, append to the manifest, and advance the counters.
`fuel` bounds the iteration count: `runScheme` passes `scale.toNat`, which
suffices whenever `chunkSize > 0`; with a non-positive chunk size the Go
loop would never terminate, which the model maps to `Err.outOfFuel`. -/
def chunkLoop {α β : Type} [LinearOrder α] [DecidableEq β]
    (env : Env α β) (cfg : Cfg) :
    Nat → LoopSt α β → Except Err (LoopSt α β) × List Ev
  | 0, st =>
    if st.totalGenerated < cfg.scale then (.error .outOfFuel, []) else (.ok st, [])
  | fuel + 1, st =>
    if st.totalGenerated < cfg.scale then
      if env.chunkCancel st.chunkIndex then (.error .cancelled, [])
      else
        let target := min cfg.chunkSize (cfg.scale - st.totalGenerated)
        if ensureMemory cfg (env.availMB st.chunkIndex) target then
          let ids := genBatch env.gen st.genCalls target.toNat
          let sortedIds := List.insertionSort (· ≤ ·) ids
          let uniq := dedupeSorted sortedIds
          let chunkHash := env.digest uniq
          let fileHash := env.digest (env.readAtWrite st.chunkIndex uniq)
          if fileHash = chunkHash then
            let out := chunkLoop env cfg fuel
              ⟨st.genCalls + target.toNat, st.totalGenerated + target,
               st.totalUniqueSum + uniq.length, st.chunkIndex + 1,
               st.manifest ++ [⟨st.chunkIndex, uniq, uniq.length, target, chunkHash⟩]⟩
            (out.1, Ev.memChecked st.chunkIndex target :: Ev.generatedChunk st.chunkIndex ::
              Ev.wroteChunk st.chunkIndex :: out.2)
          else
            (.error .integrity,
             [Ev.memChecked st.chunkIndex target, Ev.generatedChunk st.chunkIndex,
              Ev.wroteChunk st.chunkIndex])
        else (.error .resource, [Ev.memChecked st.chunkIndex target])
    else (.ok st, [])

/-- Model of `verifyChunks`: re-read every chunk from storage, re-hash, and
compare with the manifest-recorded hash; `some k` reports the first
mismatching chunk index, `none` means all chunks verified. -/
def verifyChunks {α β : Type} [DecidableEq β] (env : Env α β) :
    List (ChunkMeta α β) → Option Nat
  | [] => none
  | m :: rest =>
    if env.digest (env.readAtVerify m.index m.values) = m.hash then verifyChunks env rest
    else some m.index

/-- Model of `runScheme`: resolve the scheme, create the scratch area, run
the disk guard, produce all chunks, verify every persisted chunk, merge,
and check the count consistency equation before assembling a `RunResult`. -/
def runScheme {α β : Type} [LinearOrder α] [DecidableEq β]
    (env : Env α β) (cfg : Cfg) (scheme : String) :
    Except Err RunResult × List Ev :=
  if generatorFor scheme then
    if ensureDisk env.freeDiskBytes (cfg.scale * cfg.approxBytesPerID)
        cfg.diskSafetyFactor then
      let out := chunkLoop env cfg cfg.scale.toNat ⟨0, 0, 0, 0, []⟩
      match out.1 with
      | .error e => (.error e, Ev.tempDirCreated :: Ev.diskChecked :: out.2)
      | .ok st =>
        match verifyChunks env st.manifest with
        | some k =>
          (.error .corruption,
           Ev.tempDirCreated :: Ev.diskChecked :: out.2 ++ [Ev.verifyFailed k])
        | none =>
          let mout := mergeChunks env.sel env.mergeCancel
            (st.manifest.map (fun m => env.readAtMerge m.index m.values))
          let evs := Ev.tempDirCreated :: Ev.diskChecked :: out.2 ++
            [Ev.verifyOk, Ev.mergeStarted]
          match mout.1 with
          | .error e => (.error (.merge e), evs)
          | .ok (u, d) =>
            if st.totalUniqueSum = u + d then
              (.ok ⟨st.manifest.length, st.totalGenerated, st.totalUniqueSum, u, d⟩, evs)
            else (.error .consistency, evs)
    else (.error .resource, [Ev.tempDirCreated, Ev.diskChecked])
  else (.error .config, [])

def runSchemes {α β : Type} [LinearOrder α] [DecidableEq β]
    (env : Env α β) (cfg : Cfg) :
    List String → Nat → Except Err (List RunResult) × List Ev
  | [], _ => (.ok [], [])
  | s :: rest, k =>
    if env.schemeCancel k then (.error .cancelled, [])
    else
      let out := runScheme env cfg s
      match out.1 with
      | .error e => (.error e, out.2)
      | .ok r =>
        let outs := runSchemes env cfg rest (k + 1)
        match outs.1 with
        | .error e => (.error e, out.2 ++ outs.2)
        | .ok rs => (.ok (r :: rs), out.2 ++ outs.2)

/-- Model of `Run`: default the scheme list, reject a non-positive scale,
silently default an out-of-range chunk size to `min scale 1_000_000`,
default the bytes-per-ID estimate to 64 and the disk safety factor to
1.25, then run the schemes in order, aborting on the first failure. -/
def Run {α β : Type} [LinearOrder α] [DecidableEq β]
    (env : Env α β) (cfg : Cfg) : Except Err (List RunResult) × List Ev :=
  let schemes := if cfg.schemes.isEmpty then ["nanoid16", "ulid", "ksuid"] else cfg.schemes
  if cfg.scale ≤ 0 then (.error .config, [])
  else
    let chunkSize := if cfg.chunkSize ≤ 0 ∨ cfg.scale < cfg.chunkSize
      then min cfg.scale 1000000 else cfg.chunkSize
    let bytes := if cfg.approxBytesPerID ≤ 0 then 64 else cfg.approxBytesPerID
    let safety := if cfg.diskSafetyFactor ≤ 0 then (5 : Rat) / 4 else cfg.diskSafetyFactor
    runSchemes env
      ⟨cfg.schemes, cfg.scale, chunkSize, bytes, cfg.memGuardMB, safety⟩ schemes 0

/-- Events the chunk loop can emit, all carrying a chunk index at least
`n`; in particular the loop never emits verification or merge events. -/
def evIdxGE (n : Nat) : Ev → Prop
  | .memChecked k _ => n ≤ k
  | .generatedChunk k => n ≤ k
  | .wroteChunk k => n ≤ k
  | _ => False

lemma evIdxGE_mono {m n : Nat} {ev : Ev} (h : m ≤ n) : evIdxGE n ev → evIdxGE m ev := by
  cases ev <;> simp [evIdxGE] <;> omega

lemma chunkLoop_evs {α β : Type} [LinearOrder α] [DecidableEq β] (env : Env α β) (cfg : Cfg) :
    ∀ (fuel : Nat) (st : LoopSt α β) (ev : Ev), ev ∈ (chunkLoop env cfg fuel st).2 →
      evIdxGE st.chunkIndex ev := by
  intro fuel
  induction fuel with
  | zero =>
    intro st ev hev
    simp only [chunkLoop] at hev
    split at hev <;> simp at hev
  | succ fuel ih =>
    intro st ev hev
    simp only [chunkLoop] at hev
    split at hev
    · split at hev
      · simp at hev
      · split at hev
        · split at hev
          · simp only [List.mem_cons] at hev
            rcases hev with rfl | rfl | rfl | hev
            · simp [evIdxGE]
            · simp [evIdxGE]
            · simp [evIdxGE]
            · exact evIdxGE_mono (Nat.le_succ _) (ih _ ev hev)
          · simp only [List.mem_cons] at hev
            rcases hev with rfl | rfl | rfl | hev
            · simp [evIdxGE]
            · simp [evIdxGE]
            · simp [evIdxGE]
            · simp at hev
        · simp only [List.mem_cons] at hev
          rcases hev with rfl | hev
          · simp [evIdxGE]
          · simp at hev
    · simp at hev

lemma chunkLoop_ok_total {α β : Type} [LinearOrder α] [DecidableEq β]
    (env : Env α β) (cfg : Cfg) :
    ∀ (fuel : Nat) (st st' : LoopSt α β),
      (chunkLoop env cfg fuel st).1 = .ok st' →
      st.totalGenerated ≤ cfg.scale → st'.totalGenerated = cfg.scale := by
  intro fuel
  induction fuel with
  | zero =>
    intro st st' h hle
    simp only [chunkLoop] at h
    split at h
    · simp at h
    · rename_i hge
      simp only [Except.ok.injEq] at h
      subst h
      omega
  | succ fuel ih =>
    intro st st' h hle
    simp only [chunkLoop] at h
    split at h
    · rename_i hlt
      split at h
      · simp at h
      · split at h
        · split at h
          · have hmr := min_le_right cfg.chunkSize (cfg.scale - st.totalGenerated)
            refine ih _ st' h ?_
            show st.totalGenerated + min cfg.chunkSize (cfg.scale - st.totalGenerated) ≤
              cfg.scale
            omega
          · simp at h
        · simp at h
    · rename_i hge
      simp only [Except.ok.injEq] at h
      subst h
      omega

/-- A chunk whose memory guard fails aborts the loop with the resource
error, and no generation event for that chunk is ever emitted. -/
lemma chunkLoop_memfail {α β : Type} [LinearOrder α] [DecidableEq β]
    (env : Env α β) (cfg : Cfg) :
    ∀ (fuel : Nat) (st : LoopSt α β) (k : Nat) (t : Int),
      Ev.memChecked k t ∈ (chunkLoop env cfg fuel st).2 →
      ensureMemory cfg (env.availMB k) t = false →
      (chunkLoop env cfg fuel st).1 = .error .resource ∧
        Ev.generatedChunk k ∉ (chunkLoop env cfg fuel st).2 := by
  intro fuel
  induction fuel with
  | zero =>
    intro st k t hev hfail
    simp only [chunkLoop] at hev
    split at hev <;> simp at hev
  | succ fuel ih =>
    intro st k t hev hfail
    simp only [chunkLoop] at hev ⊢
    split at hev
    · rename_i hlt
      rw [if_pos hlt]
      split at hev
      · simp at hev
      · rename_i hc
        rw [if_neg hc]
        split at hev
        · rename_i hm
          rw [if_pos hm]
          split at hev
          · rename_i hh
            rw [if_pos hh]
            simp only [List.mem_cons] at hev
            rcases hev with h1 | h1 | h1 | hrest
            · injection h1 with hk ht
              subst hk
              subst ht
              rw [hm] at hfail
              simp at hfail
            · simp at h1
            · simp at h1
            · obtain ⟨hres, hnot⟩ := ih _ k t hrest hfail
              have hge := chunkLoop_evs env cfg fuel _ _ hrest
              have hkge : st.chunkIndex + 1 ≤ k := hge
              refine ⟨hres, ?_⟩
              simp only [List.mem_cons, not_or]
              refine ⟨by simp, ?_, by simp, hnot⟩
              intro hcontra
              injection hcontra with hk
              omega
          · rename_i hh
            rw [if_neg hh]
            simp only [List.mem_cons] at hev
            rcases hev with h1 | h1 | h1 | h1
            · injection h1 with hk ht
              subst hk
              subst ht
              rw [hm] at hfail
              simp at hfail
            · simp at h1
            · simp at h1
            · simp at h1
        · rename_i hm
          rw [if_neg hm]
          simp only [List.mem_cons] at hev
          rcases hev with h1 | h1
          · injection h1 with hk ht
            subst hk
            subst ht
            exact ⟨rfl, by simp⟩
          · simp at h1
    · simp at hev

/-- When the chunk target and the per-identifier estimate are positive and
the guard margin non-negative, availability below estimate-plus-margin
makes the memory guard fail. -/
lemma ensureMemory_fails (cfg : Cfg) (avail : Rat) (t : Int)
    (ht : 0 < t) (hb : 0 < cfg.approxBytesPerID) (hg : 0 ≤ cfg.memGuardMB)
    (hlt : avail < ((t * cfg.approxBytesPerID : Int) : Rat) / 1024 / 1024 + cfg.memGuardMB) :
    ensureMemory cfg avail t = false := by
  have hpos : (0 : Rat) < ((t * cfg.approxBytesPerID : Int) : Rat) / 1024 / 1024 := by
    have h1 : (0 : Int) < t * cfg.approxBytesPerID := mul_pos ht hb
    have h2 : (0 : Rat) < ((t * cfg.approxBytesPerID : Int) : Rat) := by
      exact_mod_cast h1
    positivity
  have hth : (if (((t * cfg.approxBytesPerID : Int) : Rat) / 1024 / 1024 + cfg.memGuardMB) = 0
      then ((t * cfg.approxBytesPerID : Int) : Rat) / 1024 / 1024
      else ((t * cfg.approxBytesPerID : Int) : Rat) / 1024 / 1024 + cfg.memGuardMB) =
      ((t * cfg.approxBytesPerID : Int) : Rat) / 1024 / 1024 + cfg.memGuardMB := by
    rw [if_neg]
    intro hcon
    have hpos2 : (0 : Rat) <
        ((t * cfg.approxBytesPerID : Int) : Rat) / 1024 / 1024 + cfg.memGuardMB :=
      add_pos_of_pos_of_nonneg hpos hg
    rw [hcon] at hpos2
    exact lt_irrefl 0 hpos2
  simp only [ensureMemory]
  rw [if_neg (fun hcon => absurd hcon.1 (not_le_of_lt hpos)), hth, if_pos hlt]

/-- `verifyChunks` succeeds exactly when every chunk's re-read bytes hash to
the manifest-recorded hash. -/
lemma verifyChunks_none_iff {α β : Type} [DecidableEq β] (env : Env α β) :
    ∀ man : List (ChunkMeta α β),
      verifyChunks env man = none ↔
        ∀ m ∈ man, env.digest (env.readAtVerify m.index m.values) = m.hash
  | [] => by simp [verifyChunks]
  | m :: rest => by
    rw [verifyChunks]
    split
    · rename_i hm
      rw [verifyChunks_none_iff env rest]
      constructor
      · intro h m' hm'
        rcases List.mem_cons.mp hm' with rfl | hm'
        · exact hm
        · exact h m' hm'
      · intro h m' hm'
        exact h m' (List.mem_cons_of_mem _ hm')
    · rename_i hm
      constructor
      · intro h
        cases h
      · intro h
        exact absurd (h m (List.mem_cons_self _ _)) hm

/-- Every `RunResult` a scheme run actually returns has passed the
post-merge consistency check, so its chunk-unique sum equals its global
unique count plus its duplicate count. -/
lemma runScheme_ok_consistent {α β : Type} [LinearOrder α] [DecidableEq β]
    (env : Env α β) (cfg : Cfg) (scheme : String) (res : RunResult) (tr : List Ev)
    (h : runScheme env cfg scheme = (.ok res, tr)) :
    res.chunkUnique = res.unique + res.duplicates := by
  simp only [runScheme] at h
  split at h
  · split at h
    · split at h
      · simp at h
      · split at h
        · simp at h
        · split at h
          · simp at h
          · split at h
            · rename_i hsum
              simp only [Prod.mk.injEq, Except.ok.injEq] at h
              obtain ⟨hres, _⟩ := h
              subst hres
              simpa using hsum
            · simp at h
    · simp at h
  · simp at h

/-- A completed scheme run generated exactly the configured scale. -/
lemma runScheme_ok_generated {α β : Type} [LinearOrder α] [DecidableEq β]
    (env : Env α β) (cfg : Cfg) (scheme : String) (res : RunResult) (tr : List Ev)
    (h : runScheme env cfg scheme = (.ok res, tr)) (hscale : 0 ≤ cfg.scale) :
    res.generated = cfg.scale := by
  rcases hloop : chunkLoop env cfg cfg.scale.toNat ⟨0, 0, 0, 0, []⟩ with ⟨lres, levs⟩
  simp only [runScheme, hloop] at h
  split at h
  · split at h
    · cases lres with
      | error e => simp at h
      | ok st =>
        have hst : st.totalGenerated = cfg.scale := by
          refine chunkLoop_ok_total env cfg cfg.scale.toNat ⟨0, 0, 0, 0, []⟩ st ?_ hscale
          rw [hloop]
        simp only at h
        split at h
        · simp at h
        · split at h
          · simp at h
          · split at h
            · simp only [Prod.mk.injEq, Except.ok.injEq] at h
              obtain ⟨hres, _⟩ := h
              subst hres
              simpa using hst
            · simp at h
    · simp at h
  · simp at h

lemma runScheme_unknown {α β : Type} [LinearOrder α] [DecidableEq β]
    (env : Env α β) (cfg : Cfg) (scheme : String) (hg : generatorFor scheme = false) :
    runScheme env cfg scheme = (.error .config, []) := by
  simp only [runScheme]
  rw [if_neg (by simp [hg])]

lemma Run_scale_invalid {α β : Type} [LinearOrder α] [DecidableEq β]
    (env : Env α β) (cfg : Cfg) (hs : cfg.scale ≤ 0) :
    Run env cfg = (.error .config, []) := by
  simp only [Run]
  rw [if_pos hs]

/-- An out-of-range chunk size is silently replaced by
`min scale 1_000_000`: `Run` behaves exactly as if that value had been
configured. -/
lemma Run_default_chunkSize {α β : Type} [LinearOrder α] [DecidableEq β]
    (env : Env α β) (cfg : Cfg) (hs : 0 < cfg.scale)
    (hcs : cfg.chunkSize ≤ 0 ∨ cfg.scale < cfg.chunkSize) :
    Run env cfg = Run env ⟨cfg.schemes, cfg.scale, min cfg.scale 1000000,
      cfg.approxBytesPerID, cfg.memGuardMB, cfg.diskSafetyFactor⟩ := by
  simp only [Run]
  rw [if_pos hcs]
  rw [if_neg (not_le_of_lt hs), if_neg (not_le_of_lt hs)]
  rw [if_neg (show ¬(min cfg.scale 1000000 ≤ 0 ∨ cfg.scale < min cfg.scale 1000000) from
    not_or.mpr ⟨not_le.mpr (lt_min hs (by norm_num)), not_lt.mpr (min_le_left _ _)⟩)]

/-- Whenever a scheme run starts its merge, the all-chunk verification
succeeded strictly earlier in the run: the trace contains `verifyOk`
followed (not necessarily adjacently) by `mergeStarted`. -/
lemma runScheme_merge_after_verify {α β : Type} [LinearOrder α] [DecidableEq β]
    (env : Env α β) (cfg : Cfg) (scheme : String) (res : Except Err RunResult)
    (tr : List Ev) (h : runScheme env cfg scheme = (res, tr))
    (hm : Ev.mergeStarted ∈ tr) :
    List.Sublist [Ev.verifyOk, Ev.mergeStarted] tr := by
  rcases hloop : chunkLoop env cfg cfg.scale.toNat ⟨0, 0, 0, 0, []⟩ with ⟨lres, levs⟩
  have hloopev : ∀ ev ∈ levs, evIdxGE 0 ev := by
    intro ev hev
    have hh := chunkLoop_evs env cfg cfg.scale.toNat ⟨0, 0, 0, 0, []⟩ ev
    rw [hloop] at hh
    exact hh hev
  simp only [runScheme, hloop] at h
  by_cases hg : generatorFor scheme = true
  · rw [if_pos hg] at h
    by_cases hd : ensureDisk env.freeDiskBytes (cfg.scale * cfg.approxBytesPerID)
        cfg.diskSafetyFactor = true
    · rw [if_pos hd] at h
      cases lres with
      | error e =>
        injection h with h1 h2
        subst h2
        simp at hm
        exact ((hloopev _ hm).elim)
      | ok st =>
        rcases hver : verifyChunks env st.manifest with _ | k
        · simp only [hver] at h
          rcases hmerge : mergeChunks env.sel env.mergeCancel
              (st.manifest.map (fun m => env.readAtMerge m.index m.values)) with ⟨mres, mtr⟩
          simp only [hmerge] at h
          cases mres with
          | error e =>
            injection h with h1 h2
            subst h2
            exact List.Sublist.cons _ (List.Sublist.cons _ (List.sublist_append_right _ _))
          | ok ud =>
            obtain ⟨u, d⟩ := ud
            split at h
            · rename_i heq
              simp at heq
            · split at h
              · injection h with h1 h2
                subst h2
                exact List.Sublist.cons _ (List.Sublist.cons _ (List.sublist_append_right _ _))
              · injection h with h1 h2
                subst h2
                exact List.Sublist.cons _ (List.Sublist.cons _ (List.sublist_append_right _ _))
        · simp only [hver] at h
          injection h with h1 h2
          subst h2
          simp at hm
          exact ((hloopev _ hm).elim)
    · rw [if_neg hd] at h
      injection h with h1 h2
      subst h2
      simp at hm
  · rw [if_neg hg] at h
    injection h with h1 h2
    subst h2
    simp at hm

/-- A verification failure aborts the run with the corruption error and the
merge is never started. -/
lemma runScheme_verifyFailed {α β : Type} [LinearOrder α] [DecidableEq β]
    (env : Env α β) (cfg : Cfg) (scheme : String) (res : Except Err RunResult)
    (tr : List Ev) (k : Nat) (h : runScheme env cfg scheme = (res, tr))
    (hk : Ev.verifyFailed k ∈ tr) :
    res = .error .corruption ∧ Ev.mergeStarted ∉ tr := by
  rcases hloop : chunkLoop env cfg cfg.scale.toNat ⟨0, 0, 0, 0, []⟩ with ⟨lres, levs⟩
  have hloopev : ∀ ev ∈ levs, evIdxGE 0 ev := by
    intro ev hev
    have hh := chunkLoop_evs env cfg cfg.scale.toNat ⟨0, 0, 0, 0, []⟩ ev
    rw [hloop] at hh
    exact hh hev
  simp only [runScheme, hloop] at h
  by_cases hg : generatorFor scheme = true
  · rw [if_pos hg] at h
    by_cases hd : ensureDisk env.freeDiskBytes (cfg.scale * cfg.approxBytesPerID)
        cfg.diskSafetyFactor = true
    · rw [if_pos hd] at h
      cases lres with
      | error e =>
        injection h with h1 h2
        subst h2
        simp at hk
        exact ((hloopev _ hk).elim)
      | ok st =>
        rcases hver : verifyChunks env st.manifest with _ | k'
        · simp only [hver] at h
          rcases hmerge : mergeChunks env.sel env.mergeCancel
              (st.manifest.map (fun m => env.readAtMerge m.index m.values)) with ⟨mres, mtr⟩
          simp only [hmerge] at h
          cases mres with
          | error e =>
            injection h with h1 h2
            subst h2
            simp at hk
            exact ((hloopev _ hk).elim)
          | ok ud =>
            obtain ⟨u, d⟩ := ud
            split at h
            · rename_i heq
              simp at heq
            · split at h
              · injection h with h1 h2
                subst h2
                simp at hk
                exact ((hloopev _ hk).elim)
              · injection h with h1 h2
                subst h2
                simp at hk
                exact ((hloopev _ hk).elim)
        · simp only [hver] at h
          injection h with h1 h2
          subst h1
          subst h2
          refine ⟨rfl, ?_⟩
          intro hcontra
          simp at hcontra
          exact ((hloopev _ hcontra).elim)
    · rw [if_neg hd] at h
      injection h with h1 h2
      subst h2
      simp at hk
  · rw [if_neg hg] at h
    injection h with h1 h2
    subst h2
    simp at hk

/-- A memory check recorded for some chunk whose guard condition fails
forces the whole scheme run to abort with the resource error, and that
chunk's generation event never appears in the trace. -/
lemma runScheme_memfail {α β : Type} [LinearOrder α] [DecidableEq β]
    (env : Env α β) (cfg : Cfg) (scheme : String) (res : Except Err RunResult)
    (tr : List Ev) (k : Nat) (t : Int) (h : runScheme env cfg scheme = (res, tr))
    (hev : Ev.memChecked k t ∈ tr)
    (hfail : ensureMemory cfg (env.availMB k) t = false) :
    res = .error .resource ∧ Ev.generatedChunk k ∉ tr := by
  rcases hloop : chunkLoop env cfg cfg.scale.toNat ⟨0, 0, 0, 0, []⟩ with ⟨lres, levs⟩
  have hml := chunkLoop_memfail env cfg cfg.scale.toNat ⟨0, 0, 0, 0, []⟩ k t
  rw [hloop] at hml
  simp only at hml
  simp only [runScheme, hloop] at h
  by_cases hg : generatorFor scheme = true
  · rw [if_pos hg] at h
    by_cases hd : ensureDisk env.freeDiskBytes (cfg.scale * cfg.approxBytesPerID)
        cfg.diskSafetyFactor = true
    · rw [if_pos hd] at h
      cases lres with
      | error e =>
        injection h with h1 h2
        subst h1
        subst h2
        simp at hev
        obtain ⟨hres, hgen⟩ := hml hev hfail
        injection hres with he
        subst he
        refine ⟨rfl, ?_⟩
        intro hcontra
        simp at hcontra
        exact hgen hcontra
      | ok st =>
        rcases hver : verifyChunks env st.manifest with _ | k'
        · simp only [hver] at h
          rcases hmerge : mergeChunks env.sel env.mergeCancel
              (st.manifest.map (fun m => env.readAtMerge m.index m.values)) with ⟨mres, mtr⟩
          simp only [hmerge] at h
          cases mres with
          | error e =>
            injection h with h1 h2
            subst h2
            simp at hev
            obtain ⟨hres, _⟩ := hml hev hfail
            simp at hres
          | ok ud =>
            obtain ⟨u, d⟩ := ud
            split at h
            · rename_i heq
              simp at heq
            · split at h
              · injection h with h1 h2
                subst h2
                simp at hev
                obtain ⟨hres, _⟩ := hml hev hfail
                simp at hres
              · injection h with h1 h2
                subst h2
                simp at hev
                obtain ⟨hres, _⟩ := hml hev hfail
                simp at hres
        · simp only [hver] at h
          injection h with h1 h2
          subst h2
          simp at hev
          obtain ⟨hres, _⟩ := hml hev hfail
          simp at hres
    · rw [if_neg hd] at h
      injection h with h1 h2
      subst h2
      simp at hev
  · rw [if_neg hg] at h
    injection h with h1 h2
    subst h2
    simp at hev

/-- With the cancellation signal already tripped at the first pop
iteration, no merge invocation can return counts. -/
lemma mergeChunks_cancel0 {α : Type} [LinearOrder α]
    (sel : Nat → List (Cursor α) → Nat) (cancel : Nat → Bool)
    (chunks : List (List α)) (hc : cancel 0 = true) (u d : Nat) :
    (mergeChunks sel cancel chunks).1 ≠ .ok (u, d) := by
  intro h
  simp only [mergeChunks] at h
  split at h
  · simp at h
  · split at h
    · simp at h
    · rename_i h2
      rcases hcur : toCursors chunks with _ | ⟨c, cs'⟩
      · rw [hcur] at h2
        simp at h2
      · rw [hcur] at h
        rcases hlen : (remaining (c :: cs')).length with _ | m
        · rw [remaining_cons] at hlen
          simp [Cursor.toList] at hlen
        · rw [hlen, mergeLoop, if_pos hc] at h
          simp at h

/-- With the cancellation signal tripped at the first merge iteration, a
scheme run never produces a `RunResult`. -/
lemma runScheme_cancel0_no_ok {α β : Type} [LinearOrder α] [DecidableEq β]
    (env : Env α β) (cfg : Cfg) (scheme : String)
    (hc : env.mergeCancel 0 = true) (r : RunResult) (tr : List Ev) :
    runScheme env cfg scheme ≠ (.ok r, tr) := by
  intro h
  rcases hloop : chunkLoop env cfg cfg.scale.toNat ⟨0, 0, 0, 0, []⟩ with ⟨lres, levs⟩
  simp only [runScheme, hloop] at h
  by_cases hg : generatorFor scheme = true
  · rw [if_pos hg] at h
    by_cases hd : ensureDisk env.freeDiskBytes (cfg.scale * cfg.approxBytesPerID)
        cfg.diskSafetyFactor = true
    · rw [if_pos hd] at h
      cases lres with
      | error e => simp at h
      | ok st =>
        rcases hver : verifyChunks env st.manifest with _ | k'
        · simp only [hver] at h
          rcases hmerge : mergeChunks env.sel env.mergeCancel
              (st.manifest.map (fun m => env.readAtMerge m.index m.values)) with ⟨mres, mtr⟩
          simp only [hmerge] at h
          cases mres with
          | error e => simp at h
          | ok ud =>
            obtain ⟨u, d⟩ := ud
            have hne := mergeChunks_cancel0 env.sel env.mergeCancel
              (st.manifest.map (fun m => env.readAtMerge m.index m.values)) hc u d
            rw [hmerge] at hne
            simp at hne
        · simp only [hver] at h
          simp at h
    · rw [if_neg hd] at h
      simp at h
  · rw [if_neg hg] at h
    simp at h

/-- A cancellation signal first tripped at pop iteration `n`, with more
than `n` values across the chunks, makes the merge return the cancellation
error after having popped exactly `n` values. -/
lemma mergeChunks_cancelled {α : Type} [LinearOrder α]
    (sel : Nat → List (Cursor α) → Nat) (cancel : Nat → Bool)
    (chunks : List (List α)) (n : Nat) (hn : cancel n = true)
    (hfirst : ∀ m < n, cancel m = false) (hlt : n < chunks.flatten.length) :
    (mergeChunks sel cancel chunks).1 = .error .cancelled ∧
      ((mergeChunks sel cancel chunks).2).length = n := by
  have hrem := remaining_toCursors (α := α) chunks
  have hcur : ¬((toCursors chunks).isEmpty = true) := by
    intro hc
    rw [List.isEmpty_iff] at hc
    rw [hc, remaining_nil] at hrem
    rw [← hrem] at hlt
    simp at hlt
  have hch : ¬(chunks.isEmpty = true) := by
    intro hc
    rw [List.isEmpty_iff] at hc
    subst hc
    simp at hlt
  simp only [mergeChunks]
  rw [if_neg hch, if_neg hcur]
  exact mergeLoop_cancelled sel cancel (remaining (toCursors chunks)).length
    (toCursors chunks) none 0 0 0 n (Nat.zero_le n) hn
    (fun m _ hm => hfirst m hm) (by rw [hrem]; omega) (le_refl _)

end UidStress

deriving instance DecidableEq for Except

namespace UidStress

/-! ### Concrete environments for evaluation

Identifiers are instantiated at `Nat`, the digest at the identity on value
lists; storage read-back is the identity except where a fault is being
exercised. -/

/-- A benign environment: ample memory and disk, intact storage, no
cancellation; the generator emits `0, 1, 2, …`. -/
def envW : Env Nat (List Nat) :=
  ⟨fun n => n, fun _ => 1000000000, 1000000000, fun v => v,
   fun _ v => v, fun _ v => v, fun _ v => v,
   fun _ cs => idxOfMin cs, fun _ => false, fun _ => false, fun _ => false⟩

/-- Scale 2, chunk size 1, one byte per identifier, no guard margin. -/
def cfgW : Cfg := ⟨["ulid"], 2, 1, 1, 0, 1⟩

/-- The trace of the completed `cfgW` run. -/
def trW : List Ev :=
  [Ev.tempDirCreated, Ev.diskChecked, Ev.memChecked 0 1, Ev.generatedChunk 0,
   Ev.wroteChunk 0, Ev.memChecked 1 1, Ev.generatedChunk 1, Ev.wroteChunk 1,
   Ev.verifyOk, Ev.mergeStarted]

/-- Like `envW` but storage returns corrupted bytes when re-read during
`verifyChunks`. -/
def envBad : Env Nat (List Nat) :=
  ⟨fun n => n, fun _ => 1000000000, 1000000000, fun v => v,
   fun _ v => v, fun _ _ => [999], fun _ v => v,
   fun _ cs => idxOfMin cs, fun _ => false, fun _ => false, fun _ => false⟩

/-- Like `envW` but with no available memory. -/
def envLowMem : Env Nat (List Nat) :=
  ⟨fun n => n, fun _ => 0, 1000000000, fun v => v,
   fun _ v => v, fun _ v => v, fun _ v => v,
   fun _ cs => idxOfMin cs, fun _ => false, fun _ => false, fun _ => false⟩

/-- `cfgW` with an invalid (zero) chunk size. -/
def cfgBadCS : Cfg := ⟨["ulid"], 2, 0, 1, 0, 1⟩

/-- `cfgW` with an invalid (zero) scale. -/
def cfgZeroScale : Cfg := ⟨["ulid"], 0, 1, 1, 0, 1⟩

/-! ### The claims -/

/-- C1 (amended): for every family of chunks, each sorted and free of
adjacent equal values, with at least one chunk non-empty, `mergeChunks`
returns a unique count equal to the number of distinct values across all
chunks and a duplicate count equal to the total number of values minus
that number, for every valid heap tie-break policy — pop order among tied
minima is irrelevant. -/
theorem C1_merge_counts {α : Type} [LinearOrder α]
    (sel : Nat → List (Cursor α) → Nat) (hsel : ValidSel sel)
    (chunks : List (List α))
    (hsorted : ∀ ch ∈ chunks, List.Sorted (· ≤ ·) ch)
    (hadj : ∀ ch ∈ chunks, List.Chain' (· ≠ ·) ch)
    (hne : ∃ ch ∈ chunks, ch ≠ []) :
    (mergeChunks sel (fun _ => false) chunks).1 =
      .ok (chunks.flatten.toFinset.card,
           chunks.flatten.length - chunks.flatten.toFinset.card) :=
  mergeChunks_ok hsel chunks hsorted hne

/-- C1 counterexample to the claim as stated: the family consisting of one
empty chunk is sorted and adjacent-free with zero distinct values, yet
`mergeChunks` reports the all-chunks-empty error instead of returning the
counts `(0, 0)`. -/
theorem C1_cex :
    (mergeChunks (fun _ cs => idxOfMin cs) (fun _ => false)
        ([[]] : List (List Nat))).1 = .error .allEmpty ∧
      (mergeChunks (fun _ cs => idxOfMin cs) (fun _ => false)
        ([[]] : List (List Nat))).1 ≠
        .ok (([[]] : List (List Nat)).flatten.toFinset.card,
             ([[]] : List (List Nat)).flatten.length -
               ([[]] : List (List Nat)).flatten.toFinset.card) := by
  decide

theorem C1_witness :
    (mergeChunks (fun _ cs => idxOfMin cs) (fun _ => false)
        ([[1, 3], [1, 2]] : List (List Nat))).1 =
      .ok (([[1, 3], [1, 2]] : List (List Nat)).flatten.toFinset.card,
           ([[1, 3], [1, 2]] : List (List Nat)).flatten.length -
             ([[1, 3], [1, 2]] : List (List Nat)).flatten.toFinset.card) :=
  C1_merge_counts (fun _ cs => idxOfMin cs) idxOfMin_validSel [[1, 3], [1, 2]]
    (by decide) (by intro ch hch; fin_cases hch <;> simp) (by decide)

/-- C2: every `RunResult` a completed scheme run returns satisfies
`chunkUnique = unique + duplicates` — the run's consistency check rejects
any violating merge outcome with a fatal error instead of returning it. -/
theorem C2_count_consistency {α β : Type} [LinearOrder α] [DecidableEq β]
    (env : Env α β) (cfg : Cfg) (scheme : String) (res : RunResult) (tr : List Ev)
    (h : runScheme env cfg scheme = (.ok res, tr)) :
    res.chunkUnique = res.unique + res.duplicates :=
  runScheme_ok_consistent env cfg scheme res tr h

unseal Rat.mul Rat.add Rat.inv in
theorem C2_witness :
    (⟨2, 2, 2, 2, 0⟩ : RunResult).chunkUnique =
      (⟨2, 2, 2, 2, 0⟩ : RunResult).unique + (⟨2, 2, 2, 2, 0⟩ : RunResult).duplicates :=
  C2_count_consistency envW cfgW "ulid" ⟨2, 2, 2, 2, 0⟩ trW (by decide)

/-- C3: writing a list of identifiers with `writeChunkFile` and re-hashing
the persisted bytes with `hashFile` yields exactly the in-memory
`hashStrings` digest of the same list, for every list and every digest
function of the byte stream. -/
theorem C3_roundtrip_hash {β : Type} (digest : List Nat → β)
    (values : List (List Nat)) :
    hashFile digest (writeChunkFile values) = hashStrings digest values := by
  unfold hashFile hashStrings
  rw [writeChunkFile_eq_hashBlocks]

/-- C4: the merge never runs against unverified data — `verifyChunks`
succeeds exactly when every manifest record's re-read bytes re-hash to the
recorded hash; whenever a run's trace shows the merge starting, the
verification success strictly precedes it; and a verification failure
aborts the run with the corruption error with the merge never started. -/
theorem C4_verify_gate {α β : Type} [LinearOrder α] [DecidableEq β]
    (env : Env α β) (cfg : Cfg) (scheme : String) :
    (∀ man : List (ChunkMeta α β), verifyChunks env man = none ↔
      ∀ m ∈ man, env.digest (env.readAtVerify m.index m.values) = m.hash) ∧
    (∀ (res : Except Err RunResult) (tr : List Ev),
      runScheme env cfg scheme = (res, tr) → Ev.mergeStarted ∈ tr →
        List.Sublist [Ev.verifyOk, Ev.mergeStarted] tr) ∧
    (∀ (res : Except Err RunResult) (tr : List Ev) (k : Nat),
      runScheme env cfg scheme = (res, tr) → Ev.verifyFailed k ∈ tr →
        res = .error .corruption ∧ Ev.mergeStarted ∉ tr) :=
  ⟨verifyChunks_none_iff env,
   fun res tr h hm => runScheme_merge_after_verify env cfg scheme res tr h hm,
   fun res tr k h hk => runScheme_verifyFailed env cfg scheme res tr k h hk⟩

unseal Rat.mul Rat.add Rat.inv in
theorem C4_witness :
    (Except.error Err.corruption : Except Err RunResult) = .error .corruption ∧
      Ev.mergeStarted ∉
        [Ev.tempDirCreated, Ev.diskChecked, Ev.memChecked 0 1, Ev.generatedChunk 0,
         Ev.wroteChunk 0, Ev.memChecked 1 1, Ev.generatedChunk 1, Ev.wroteChunk 1,
         Ev.verifyFailed 0] :=
  (C4_verify_gate envBad cfgW "ulid").2.2 (.error .corruption)
    [Ev.tempDirCreated, Ev.diskChecked, Ev.memChecked 0 1, Ev.generatedChunk 0,
     Ev.wroteChunk 0, Ev.memChecked 1 1, Ev.generatedChunk 1, Ev.wroteChunk 1,
     Ev.verifyFailed 0] 0 (by decide) (by decide)

/-- C5: on a sorted input list, `dedupeSorted` returns a list that is
still sorted in non-decreasing order, has no two adjacent equal values,
and holds exactly the same set of distinct values as the input. -/
theorem C5_dedupe_sorted {α : Type} [LinearOrder α] (l : List α)
    (h : List.Sorted (· ≤ ·) l) :
    List.Sorted (· ≤ ·) (dedupeSorted l) ∧
      List.Chain' (· ≠ ·) (dedupeSorted l) ∧
      (dedupeSorted l).toFinset = l.toFinset := by
  have hs := dedupeSorted_sorted h
  exact ⟨hs.imp (fun hab => le_of_lt hab),
    (hs.imp (fun hab => ne_of_lt hab)).chain',
    dedupeSorted_toFinset l⟩

theorem C5_witness :
    List.Sorted (· ≤ ·) (dedupeSorted [1, 1, 2, 2, 3]) ∧
      List.Chain' (· ≠ ·) (dedupeSorted [1, 1, 2, 2, 3]) ∧
      (dedupeSorted [1, 1, 2, 2, 3]).toFinset = ([1, 1, 2, 2, 3] : List Nat).toFinset :=
  C5_dedupe_sorted [1, 1, 2, 2, 3] (by decide)

/-- C6: for every positive scale `S` and chunk size `C` with `0 < C ≤ S`,
a scheme run that completes without error reports a total generated count
exactly equal to `S`. -/
theorem C6_total_generated {α β : Type} [LinearOrder α] [DecidableEq β]
    (env : Env α β) (cfg : Cfg) (scheme : String) (res : RunResult) (tr : List Ev)
    (hS : 0 < cfg.scale) (hC : 0 < cfg.chunkSize) (hCS : cfg.chunkSize ≤ cfg.scale)
    (h : runScheme env cfg scheme = (.ok res, tr)) :
    res.generated = cfg.scale :=
  runScheme_ok_generated env cfg scheme res tr h (le_of_lt hS)

unseal Rat.mul Rat.add Rat.inv in
theorem C6_witness : (⟨2, 2, 2, 2, 0⟩ : RunResult).generated = cfgW.scale :=
  C6_total_generated envW cfgW "ulid" ⟨2, 2, 2, 2, 0⟩ trW
    (by decide) (by decide) (by decide) (by decide)

/-- C7 (amended): a non-positive scale makes `Run` fail with the
configuration error before anything is allocated (empty trace); an unknown
scheme name makes `runScheme` fail with the configuration error before any
allocation for that scheme (empty trace); an out-of-range chunk size does
NOT fail — it is silently replaced by `min scale 1_000_000`. -/
theorem C7_config_validation {α β : Type} [LinearOrder α] [DecidableEq β] :
    (∀ (env : Env α β) (cfg : Cfg), cfg.scale ≤ 0 →
      Run env cfg = (.error .config, [])) ∧
    (∀ (env : Env α β) (cfg : Cfg) (scheme : String), generatorFor scheme = false →
      runScheme env cfg scheme = (.error .config, [])) ∧
    (∀ (env : Env α β) (cfg : Cfg), 0 < cfg.scale →
      cfg.chunkSize ≤ 0 ∨ cfg.scale < cfg.chunkSize →
      Run env cfg = Run env ⟨cfg.schemes, cfg.scale, min cfg.scale 1000000,
        cfg.approxBytesPerID, cfg.memGuardMB, cfg.diskSafetyFactor⟩) :=
  ⟨fun env cfg hs => Run_scale_invalid env cfg hs,
   fun env cfg scheme hg => runScheme_unknown env cfg scheme hg,
   fun env cfg hs hcs => Run_default_chunkSize env cfg hs hcs⟩

unseal Rat.mul Rat.add Rat.inv in
/-- C7 counterexample to the claim as stated: with an invalid chunk size
(zero) and everything else valid, the run does not fail with a
configuration error — it allocates its scratch area and completes. -/
theorem C7_cex :
    (Run envW cfgBadCS).1 = .ok [⟨1, 2, 2, 2, 0⟩] ∧
      Ev.tempDirCreated ∈ (Run envW cfgBadCS).2 := by
  decide

theorem C7_witness : Run envW cfgZeroScale = (.error .config, []) :=
  C7_config_validation.1 envW cfgZeroScale (by decide)

/-- C8: in any scheme run, whenever the memory guard for a chunk observes
available memory below the chunk's estimated requirement
(`target × bytesPerID` MB) plus the configured guard margin, the run fails
with the resource-exhaustion error and no identifier is generated for that
chunk (its generation event never occurs). -/
theorem C8_memory_guard {α β : Type} [LinearOrder α] [DecidableEq β]
    (env : Env α β) (cfg : Cfg) (scheme : String) (res : Except Err RunResult)
    (tr : List Ev) (k : Nat) (t : Int)
    (h : runScheme env cfg scheme = (res, tr)) (hev : Ev.memChecked k t ∈ tr)
    (ht : 0 < t) (hb : 0 < cfg.approxBytesPerID) (hg : 0 ≤ cfg.memGuardMB)
    (hlt : env.availMB k <
      ((t * cfg.approxBytesPerID : Int) : Rat) / 1024 / 1024 + cfg.memGuardMB) :
    res = .error .resource ∧ Ev.generatedChunk k ∉ tr :=
  runScheme_memfail env cfg scheme res tr k t h hev
    (ensureMemory_fails cfg (env.availMB k) t ht hb hg hlt)

unseal Rat.mul Rat.add Rat.inv in
theorem C8_witness :
    (Except.error Err.resource : Except Err RunResult) = .error .resource ∧
      Ev.generatedChunk 0 ∉ [Ev.tempDirCreated, Ev.diskChecked, Ev.memChecked 0 1] :=
  C8_memory_guard envLowMem cfgW "ulid" (.error .resource)
    [Ev.tempDirCreated, Ev.diskChecked, Ev.memChecked 0 1] 0 1
    (by decide) (by decide) (by decide) (by decide) (by decide) (by decide)

/-- C9: the merge loop checks the cancellation signal at every pop
iteration — a signal first tripped at iteration `n` (mid-merge) stops the
merge after exactly the `n` earlier pops and returns the cancellation
error; and a run whose merge is cancelled produces no `RunResult`. -/
theorem C9_merge_cancellation {α β : Type} [LinearOrder α] [DecidableEq β] :
    (∀ (sel : Nat → List (Cursor α) → Nat) (cancel : Nat → Bool)
      (chunks : List (List α)) (n : Nat), cancel n = true →
      (∀ m < n, cancel m = false) → n < chunks.flatten.length →
      (mergeChunks sel cancel chunks).1 = .error .cancelled ∧
        ((mergeChunks sel cancel chunks).2).length = n) ∧
    (∀ (env : Env α β) (cfg : Cfg) (scheme : String), env.mergeCancel 0 = true →
      ∀ (r : RunResult) (tr : List Ev), runScheme env cfg scheme ≠ (.ok r, tr)) :=
  ⟨fun sel cancel chunks n hn hfirst hlt =>
    mergeChunks_cancelled sel cancel chunks n hn hfirst hlt,
   fun env cfg scheme hc r tr => runScheme_cancel0_no_ok env cfg scheme hc r tr⟩

theorem C9_witness :
    (mergeChunks (fun _ cs => idxOfMin cs) (fun m => decide (m = 1))
        ([[5], [6]] : List (List Nat))).1 = .error .cancelled ∧
      ((mergeChunks (fun _ cs => idxOfMin cs) (fun m => decide (m = 1))
        ([[5], [6]] : List (List Nat))).2).length = 1 :=
  (C9_merge_cancellation (β := List Nat)).1 (fun _ cs => idxOfMin cs)
    (fun m => decide (m = 1)) [[5], [6]] 1 (by decide) (by decide) (by decide)

/-- C10: `mergeChunks` returns an error and no counts on an empty chunk
list, and likewise when every chunk is empty; chunk files that are empty
while another chunk is non-empty are silently skipped — the merge result
over the family equals the result over the non-empty chunks alone. -/
theorem C10_empty_chunks {α : Type} [LinearOrder α]
    (sel : Nat → List (Cursor α) → Nat) (cancel : Nat → Bool) :
    ((mergeChunks sel cancel ([] : List (List α))).1 = .error .noChunks) ∧
    (∀ chunks : List (List α), chunks ≠ [] → (∀ ch ∈ chunks, ch = []) →
      (mergeChunks sel cancel chunks).1 = .error .allEmpty) ∧
    (∀ chunks : List (List α), (∃ ch ∈ chunks, ch ≠ []) →
      mergeChunks sel cancel (chunks.filter (fun ch => !ch.isEmpty)) =
        mergeChunks sel cancel chunks) := by
  refine ⟨rfl, ?_, ?_⟩
  · intro chunks hne hall
    simp only [mergeChunks]
    rw [if_neg (by
      intro hc
      rw [List.isEmpty_iff] at hc
      exact hne hc)]
    rw [if_pos (by rw [toCursors_eq_nil hall]; rfl)]
  · intro chunks hne
    exact mergeChunks_skip_empty sel cancel chunks hne

theorem C10_witness :
    (mergeChunks (fun _ cs => idxOfMin cs) (fun _ => false)
        ([[], []] : List (List Nat))).1 = .error .allEmpty ∧
      mergeChunks (fun _ cs => idxOfMin cs) (fun _ => false)
          (([[1], [], [2]] : List (List Nat)).filter (fun ch => !ch.isEmpty)) =
        mergeChunks (fun _ cs => idxOfMin cs) (fun _ => false)
          ([[1], [], [2]] : List (List Nat)) :=
  ⟨(C10_empty_chunks (fun _ cs => idxOfMin cs) (fun _ => false)).2.1
      [[], []] (by decide) (by decide),
   (C10_empty_chunks (fun _ cs => idxOfMin cs) (fun _ => false)).2.2
      [[1], [], [2]] (by decide)⟩

end UidStress
